import Mathlib

set_option maxRecDepth 4000

/-!
Verification of the schema-flattening core of the grants form-analysis
repository (`forms_analysis/parse.py`), together with its batch aggregator,
metadata enrichment, and the section-completion metrics utility
(`product_strategy_metrics/calculate_metrics.py`).

The XML element trees consumed by `parse.py` are modelled by `XmlElem`; the
ElementTree operations used by the source (`get`, `find("./tag")`,
`find(".//tag")`, `findall("./tag")`) are modelled by `XmlElem.get`,
`findDirect`, `findDeep` and `findallDirect`.  Recursive tree walks carry an
explicit fuel argument so that they are structurally recursive (and hence
evaluate inside the kernel); every entry point passes fuel derived from
`XmlElem.size`, which is proved sufficient where a theorem needs it.
Fallible code returns `Except String`.  Python's `str.split`, `str.strip` and
`str.replace` are modelled by `pySplit`, `pyStrip` and `pyReplace` over the
character lists of Lean strings.
-/

/-- A node of an XML document: tag, attributes, text content, children.
`text` is `none` when the element has no text node (ElementTree's
`.text is None`). -/
inductive XmlElem where
  | mk (tag : String) (attrs : List (String × String)) (text : Option String)
      (children : List XmlElem)

def XmlElem.tag : XmlElem → String
  | .mk t _ _ _ => t

def XmlElem.attrs : XmlElem → List (String × String)
  | .mk _ a _ _ => a

def XmlElem.text : XmlElem → Option String
  | .mk _ _ tx _ => tx

def XmlElem.children : XmlElem → List XmlElem
  | .mk _ _ _ c => c

mutual
/-- Number of nodes of an element's tree; the fuel bound for the walks. -/
def XmlElem.size : XmlElem → Nat
  | .mk _ _ _ children => 1 + sizeL children

/-- Total size of a forest, counting one extra unit per list cell so that
every structural descent strictly decreases it. -/
def sizeL : List XmlElem → Nat
  | [] => 0
  | c :: cs => 1 + c.size + sizeL cs
end

/-- `element.get(key)`: attribute lookup, `None` when absent. -/
def XmlElem.get (e : XmlElem) (key : String) : Option String :=
  (e.attrs.find? (fun kv => kv.1 == key)).map (fun kv => kv.2)

/-- Python `str.split(sep)` for a one-character separator, on character
lists: `"" ↦ [""]`, `"a:b" ↦ ["a","b"]`, adjacent separators produce empty
parts. -/
def splitOnChar (sep : Char) : List Char → List (List Char)
  | [] => [[]]
  | c :: rest =>
    let r := splitOnChar sep rest
    if c == sep then [] :: r
    else
      match r with
      | [] => [[c]]
      | g :: gs => (c :: g) :: gs

/-- Python `s.split(sep)` for a one-character separator. -/
def pySplit (s : String) (sep : Char) : List String :=
  (splitOnChar sep s.data).map (fun g => String.mk g)

/-- Python's whitespace class for `str.strip()` and `\s`. -/
def isPySpace (c : Char) : Bool :=
  c == ' ' || c == '\t' || c == '\n' || c == '\r' || c == '\x0b' || c == '\x0c'

/-- Python `s.strip()`: remove leading and trailing whitespace. -/
def pyStrip (s : String) : String :=
  String.mk (((s.data.dropWhile isPySpace).reverse.dropWhile isPySpace).reverse)

/-- Auxiliary loop for `pyReplace`; fuel is the length of the scanned list. -/
def pyReplaceAux : Nat → List Char → List Char → List Char → List Char
  | 0, rest, _, _ => rest
  | _ + 1, [], _, _ => []
  | fuel + 1, c :: cs, pat, repl =>
    if pat.isPrefixOf (c :: cs) && !pat.isEmpty then
      repl ++ pyReplaceAux fuel ((c :: cs).drop pat.length) pat repl
    else c :: pyReplaceAux fuel cs pat repl

/-- Python `s.replace(pat, repl)`: replace every occurrence, left to right. -/
def pyReplace (s pat repl : String) : String :=
  String.mk (pyReplaceAux s.data.length s.data pat.data repl.data)

/-- The XML-Schema namespace prefix used by every tag the parser matches
(`XSD_NAMESPACE` in `parse.py`). -/
def XSD_NAMESPACE : String := "\x7bhttp://www.w3.org/2001/XMLSchema\x7d"

def xsdTag (s : String) : String := XSD_NAMESPACE ++ s

def elementTag : String := xsdTag "element"
def simpleTypeTag : String := xsdTag "simpleType"
def restrictionTag : String := xsdTag "restriction"
def complexTypeTag : String := xsdTag "complexType"
def sequenceTag : String := xsdTag "sequence"
def annotationTag : String := xsdTag "annotation"
def documentationTag : String := xsdTag "documentation"

/-- `element.find("./tag")`: first direct child with the given tag. -/
def findDirect (e : XmlElem) (t : String) : Option XmlElem :=
  e.children.find? (fun c => c.tag == t)

/-- `element.findall("./tag")`: all direct children with the given tag,
in source order. -/
def findallDirect (e : XmlElem) (t : String) : List XmlElem :=
  e.children.filter (fun c => c.tag == t)

/-- Fueled document-order (pre-order) search over a forest: the engine behind
ElementTree's `find(".//...")`.  `none` on fuel exhaustion; entry points pass
sufficient fuel. -/
def findFirstF (p : XmlElem → Bool) : Nat → List XmlElem → Option XmlElem
  | 0, _ => none
  | _ + 1, [] => none
  | fuel + 1, c :: cs =>
    if p c then some c
    else
      match findFirstF p fuel c.children with
      | some r => some r
      | none => findFirstF p fuel cs

/-- Fueled pre-order listing of all nodes of a forest. -/
def allNodesF : Nat → List XmlElem → List XmlElem
  | 0, _ => []
  | _ + 1, [] => []
  | fuel + 1, c :: cs => c :: (allNodesF fuel c.children ++ allNodesF fuel cs)

/-- `element.find(".//...")`: first match among proper descendants of `e`,
in document order (the element itself is not a candidate). -/
def findDeep (e : XmlElem) (p : XmlElem → Bool) : Option XmlElem :=
  findFirstF p (sizeL e.children) e.children

/-- All proper descendants of `e` in document order. -/
def descendants (e : XmlElem) : List XmlElem :=
  allNodesF (sizeL e.children) e.children

/-- One row of the flattened schema table produced by `process_element`. -/
structure ColumnInfo where
  name : String
  path : String
  type_source : String
  type : String
  required : Bool
  min_occurrences : String
  max_occurrences : String
  description : String
  order : Nat
  depth : Nat
deriving DecidableEq

/-- Type resolution of `process_element` (`parse.py` lines 51-74): an explicit
`type` attribute splitting on ":" into exactly two parts gives
`(prefix, name)`; any other split count keeps the whole string with empty
source; an absent/empty `type` attribute falls back to a nested
simpleType/restriction, whose `base` yields `(prefix, "restriction")` when it
splits into exactly two parts and `("", "restriction")` otherwise; with no
usable signal both fields stay `""`.  Returns `(type_source, type)`. -/
def resolveType (element : XmlElem) : String × String :=
  let type_value := (element.get "type").getD ""
  if type_value ≠ "" then
    match pySplit type_value ':' with
    | [p0, p1] => (p0, p1)
    | _ => ("", type_value)
  else
    match findDirect element simpleTypeTag with
    | none => ("", "")
    | some simple_type =>
      match findDirect simple_type restrictionTag with
      | none => ("", "")
      | some restriction =>
        let base_type := (restriction.get "base").getD ""
        if base_type ≠ "" then
          match pySplit base_type ':' with
          | [p0, _] => (p0, "restriction")
          | _ => ("", "restriction")
        else ("", "")

/-- Description lookup of `process_element` (`parse.py` lines 79-84): find the
first annotation element anywhere under the node, then the first documentation
element anywhere under that annotation, and strip its text.  When the
documentation element carries no text, `documentation.text.strip()` raises
`AttributeError` in the source; this is the `.error` case. -/
def getDescription (element : XmlElem) : Except String String :=
  match findDeep element (fun x => x.tag == annotationTag) with
  | none => .ok ""
  | some ann =>
    match findDeep ann (fun x => x.tag == documentationTag) with
    | none => .ok ""
    | some docElem =>
      match docElem.text with
      | none => .error "AttributeError: NoneType has no attribute strip"
      | some t => .ok (pyStrip t)

mutual
/-- `process_element` of `parse.py`: skip unnamed nodes untouched; otherwise
emit one row (path, resolved type, occurrence data, description, order,
depth), override `type` with `"FieldSet"` when a nested
complexType/sequence declares child elements, and recurse into those
children.  The fuel argument only forces termination; the entry point
`parse_schema` passes `XmlElem.size`, which never exhausts. -/
def process_element : Nat → XmlElem → List ColumnInfo → Nat → String → Nat →
    Except String (List ColumnInfo × Nat)
  | 0, _, _, _, _, _ => .error "fuel exhausted"
  | fuel + 1, element, columns, order_counter, current_path, depth =>
    match element.get "name" with
    | none => .ok (columns, order_counter)
    | some element_name =>
      let full_path :=
        if current_path ≠ "" then current_path ++ "." ++ element_name
        else element_name
      let ts := resolveType element
      match getDescription element with
      | .error e => .error e
      | .ok description =>
        let column_info : ColumnInfo :=
          { name := element_name
            path := full_path
            type_source := ts.1
            type := ts.2
            required := (element.get "minOccurs").getD "1" ≠ "0"
            min_occurrences := (element.get "minOccurs").getD "1"
            max_occurrences := (element.get "maxOccurs").getD "1"
            description := description
            order := order_counter
            depth := depth }
        match findDirect element complexTypeTag with
        | none => .ok (columns ++ [column_info], order_counter + 1)
        | some complex_type =>
          match findDirect complex_type sequenceTag with
          | none => .ok (columns ++ [column_info], order_counter + 1)
          | some sequence =>
            let seq_elements := findallDirect sequence elementTag
            let column_info2 :=
              if seq_elements.isEmpty then column_info
              else { column_info with type := "FieldSet" }
            process_children fuel seq_elements (columns ++ [column_info2])
              (order_counter + 1) full_path (depth + 1)

/-- The `for child in sequence.findall(...)` loop of `process_element`:
process the declared children in source order, threading the accumulator and
the order counter. -/
def process_children : Nat → List XmlElem → List ColumnInfo → Nat → String →
    Nat → Except String (List ColumnInfo × Nat)
  | _, [], columns, order_counter, _, _ => .ok (columns, order_counter)
  | 0, _ :: _, _, _, _, _ => .error "fuel exhausted"
  | fuel + 1, child :: rest, columns, order_counter, current_path, depth =>
    match process_element fuel child columns order_counter current_path depth with
    | .error e => .error e
    | .ok (columns', order_counter') =>
      process_children fuel rest columns' order_counter' current_path depth
end

/-- Predicate of `root.find(".//element[@name]")`: a schema `element` node
carrying a `name` attribute. -/
def isNamedSchemaElement (x : XmlElem) : Bool :=
  x.tag == elementTag && (x.get "name").isSome

/-- Comparison used to model `df.sort_values("order")`. -/
def ordLE (a b : ColumnInfo) : Prop := a.order ≤ b.order

instance : DecidableRel ordLE := fun a b => Nat.decLe a.order b.order

instance : IsTotal ColumnInfo ordLE := ⟨fun a b => Nat.le_total a.order b.order⟩

instance : IsTrans ColumnInfo ordLE := ⟨fun _ _ _ => Nat.le_trans⟩

/-- `parse_schema` of `parse.py`: locate the first named schema element among
the proper descendants of the document root, raise
"No root element found in schema" when there is none, walk it starting at
order 0, depth 0, empty path, and return the rows sorted by `order`. -/
def parse_schema (root : XmlElem) : Except String (List ColumnInfo) :=
  match findDeep root isNamedSchemaElement with
  | none => .error "No root element found in schema"
  | some root_element =>
    match process_element root_element.size root_element [] 0 "" 0 with
    | .error e => .error e
    | .ok (columns, _) => .ok (List.insertionSort ordLE columns)


/-! ### Batch aggregation and metadata enrichment (`parse_all_schemas`,
`add_form_metadata`) -/

/-- A row of a per-document table after `parse_all_schemas` adds provenance
columns (`source_file`, `form_name_xml`, `form_link`). -/
structure DocRow where
  info : ColumnInfo
  source_file : String
  form_name_xml : String
  form_link : String
deriving DecidableEq

def base_url : String := "https://apply07.grants.gov/apply/forms/schemas/"

/-- Provenance tagging of one document's rows (`parse_all_schemas` loop body):
`source_file` is the file name, `form_name_xml` the part of the name before
the first "-", and `form_link` the base URL plus the name with every ".xml"
removed. -/
def tagRows (fname : String) (cols : List ColumnInfo) : List DocRow :=
  cols.map fun ci =>
    { info := ci
      source_file := fname
      form_name_xml := (pySplit fname '-').headD ""
      form_link := base_url ++ pyReplace fname ".xml" "" }

/-- The list `all_dfs` of `parse_all_schemas`: each document is parsed
independently; a document whose parse raises is logged and skipped. -/
def batchDfs (schema_files : List (String × XmlElem)) : List (List DocRow) :=
  schema_files.filterMap fun f => (parse_schema f.2).toOption.map (tagRows f.1)

/-- One row of the form-metadata table after `add_form_metadata` selects and
renames the CSV columns (`Form Schema` ↦ `form_link`, etc.). -/
structure MetaRow where
  form_link : String
  form_family : String
  form_name : String
  form_omb_number : String
  form_agency_owner : String
deriving DecidableEq

/-- Fueled core of `drop_duplicates(subset=["form_link"])`: keep the first
row for each link. -/
def drop_duplicatesF : Nat → List MetaRow → List MetaRow
  | 0, _ => []
  | _ + 1, [] => []
  | fuel + 1, r :: rs =>
    r :: drop_duplicatesF fuel (rs.filter (fun m => m.form_link != r.form_link))

/-- pandas `drop_duplicates(subset=["form_link"])` with default
`keep="first"`. -/
def drop_duplicates (l : List MetaRow) : List MetaRow :=
  drop_duplicatesF l.length l

/-- A descriptor row together with its joined metadata; `meta = none` models
the NaN-filled metadata columns of an unmatched left-join row. -/
structure FinalRow where
  row : DocRow
  meta : Option MetaRow
deriving DecidableEq

/-- pandas `pd.merge(df, metadata_df, on="form_link", how="left")`: each left
row pairs with every matching right row, and an unmatched left row is kept
once with empty metadata. -/
def leftMerge (df : List DocRow) (metadata_df : List MetaRow) : List FinalRow :=
  df.flatMap fun r =>
    match metadata_df.filter (fun m => m.form_link == r.form_link) with
    | [] => [{ row := r, meta := none }]
    | ms => ms.map (fun m => { row := r, meta := some m })

/-- `add_form_metadata` of `parse.py` (column selection and renaming of the
CSV already applied to `metadata`): deduplicate the metadata by `form_link`
keeping the first occurrence, then left-join the descriptor table on
`form_link`. -/
def add_form_metadata (df : List DocRow) (metadata : List MetaRow) :
    List FinalRow :=
  leftMerge df (drop_duplicates metadata)

/-- Boolean lexicographic comparison of character lists. -/
def charListLt : List Char → List Char → Bool
  | [], [] => false
  | [], _ :: _ => true
  | _ :: _, [] => false
  | a :: as, b :: bs => if a < b then true else if b < a then false else charListLt as bs

def strLt (a b : String) : Bool := charListLt a.data b.data

/-- Sort-key comparison on the joined `form_name`, NaN (`none`) last, as in
pandas `sort_values`. -/
def optNameLt : Option String → Option String → Bool
  | some a, some b => strLt a b
  | some _, none => true
  | none, _ => false

def optNameEq : Option String → Option String → Bool
  | none, none => true
  | some a, some b => a == b
  | _, _ => false

/-- Comparator for the final `sort_values(["form_name", "order"])`. -/
def finalLE (a b : FinalRow) : Bool :=
  optNameLt (a.meta.map (fun m => m.form_name)) (b.meta.map (fun m => m.form_name)) ||
    (optNameEq (a.meta.map (fun m => m.form_name)) (b.meta.map (fun m => m.form_name)) &&
      a.row.info.order ≤ b.row.info.order)

/-- `parse_all_schemas` of `parse.py`: raise when the directory yields no
files; parse each file independently, skipping failures; raise when every
file failed; otherwise concatenate, enrich with metadata, and sort by
`(form_name, order)`. -/
def parse_all_schemas (schema_files : List (String × XmlElem))
    (metadata : List MetaRow) : Except String (List FinalRow) :=
  if schema_files.isEmpty then .error "No XML files found"
  else
    let all_dfs := batchDfs schema_files
    if all_dfs.isEmpty then .error "No schemas were successfully parsed"
    else
      .ok (List.insertionSort (fun a b => finalLE a b = true)
        (add_form_metadata all_dfs.flatten metadata))

/-! ### Completion-metrics utility (`calculate_metrics.py`) -/

structure SectionAnalysis where
  percent_filled : ℚ
  filled : List String
  missing : List String
deriving DecidableEq

/-- Match `(.+)\n` at the current position: a maximal nonempty run of
non-newline characters followed by a newline; returns the captured group and
the rest of the input. -/
def lineMatch (r : List Char) : Option (List Char × List Char) :=
  let g := r.takeWhile (fun c => c != '\n')
  if g.isEmpty then none
  else
    match r.drop g.length with
    | '\n' :: tail => some (g, tail)
    | _ => none

/-- Backtracking over the greedy `\s*`: try the longest whitespace run
first, then shorter ones, until `(.+)\n` matches. -/
def backtrackWs (cs : List Char) : Nat → Option (List Char × List Char)
  | 0 => lineMatch (cs.drop 0)
  | i + 1 =>
    match lineMatch (cs.drop (i + 1)) with
    | some res => some res
    | none => backtrackWs cs i

/-- Match `\s*(.+)\n` (the part of the heading pattern after `###`). -/
def matchHeader (cs : List Char) : Option (List Char × List Char) :=
  backtrackWs cs (cs.takeWhile isPySpace).length

/-- Scanner of `re.split(r"###\s*(.+)\n", body)`: alternate the text between
matches with the captured groups.  Fuel is the input length; each match
consumes at least four characters. -/
def resplitAux : Nat → List Char → List Char → List String
  | 0, _, acc => [String.mk acc.reverse]
  | _ + 1, [], acc => [String.mk acc.reverse]
  | fuel + 1, c :: cs, acc =>
    if c == '#' then
      match cs with
      | '#' :: '#' :: rest =>
        match matchHeader rest with
        | some (g, tail) =>
          String.mk acc.reverse :: String.mk g :: resplitAux fuel tail []
        | none => resplitAux fuel cs (c :: acc)
      | _ => resplitAux fuel cs (c :: acc)
    else resplitAux fuel cs (c :: acc)

/-- `re.split(r"###\s*(.+)\n", body)`. -/
def re_split (body : String) : List String :=
  resplitAux body.data.length body.data []

/-- Python dict assignment `d[k] = v`: replace in place when the key exists,
else append. -/
def dictSet (d : List (String × String)) (k v : String) :
    List (String × String) :=
  if d.any (fun kv => kv.1 == k) then
    d.map (fun kv => if kv.1 == k then (k, v) else kv)
  else d ++ [(k, v)]

/-- The pairing loop of `parse_sections`: walk `(title, content)` pairs in
order, stripping both, later assignments to the same title overwriting. -/
def buildDict : List String → List (String × String) → List (String × String)
  | title :: content :: rest, d =>
    buildDict rest (dictSet d (pyStrip title) (pyStrip content))
  | _, d => d

/-- `parse_sections` of `calculate_metrics.py`: split the body on
`###\s*(.+)\n` headings and build the heading ↦ content dictionary from the
alternating titles and contents (the text before the first heading is
ignored). -/
def parse_sections (body : String) : List (String × String) :=
  buildDict ((re_split body).drop 1) []

/-- Dictionary membership plus lookup (`section in sections` and
`sections[section]`). -/
def lookupDict (d : List (String × String)) (k : String) : Option String :=
  (d.find? (fun kv => kv.1 == k)).map (fun kv => kv.2)

/-- `analyze_sections` of `calculate_metrics.py`: a required section is
filled when present with content longer than 20 characters or exactly
`"N/A"`; the percentage is `len(filled) / len(required) * 100`. -/
def analyze_sections (sections : List (String × String))
    (required_sections : List String) : SectionAnalysis :=
  let fm := required_sections.foldl
    (fun acc sec =>
      match lookupDict sections sec with
      | some content =>
        if content.length > 20 || content == "N/A" then (acc.1 ++ [sec], acc.2)
        else (acc.1, acc.2 ++ [sec])
      | none => (acc.1, acc.2 ++ [sec]))
    ([], [])
  { percent_filled := ((fm.1.length : ℚ) / (required_sections.length : ℚ)) * 100
    filled := fm.1
    missing := fm.2 }

/-! ### Specification-side helpers and sample inputs -/

/-- The fill condition of `analyze_sections` as a predicate on a section
name. -/
def sectionFilled (sections : List (String × String)) (sec : String) : Bool :=
  match lookupDict sections sec with
  | some content => content.length > 20 || content == "N/A"
  | none => false

/-- Dot-join of a chain of element names (the spec's "dot-joined chain of
ancestor element names"). -/
def joinPath : List String → String
  | [] => ""
  | [n] => n
  | n :: ns => n ++ "." ++ joinPath ns

/-- Number of dot separators in a path. -/
def countDots (s : String) : Nat := s.data.count '.'

/-- Modelled from the spec: "the text of the first documentation element
found anywhere in the node's subtree" — a deep search for a documentation
element, not scoped to any annotation. -/
def specFirstDocumentationText (e : XmlElem) : Option String :=
  (findDeep e (fun x => x.tag == documentationTag)).bind (fun dEl => dEl.text)

/-- A node's name attribute, when present, is nonempty and dot-free. -/
def nameOk (x : XmlElem) : Bool :=
  match x.get "name" with
  | none => true
  | some n => n != "" && !(n.data.contains '.')

/-- Every named node of the document has a nonempty, dot-free name. -/
def goodNamesDoc (doc : XmlElem) : Bool :=
  nameOk doc && (descendants doc).all nameOk

/-- Propositional form of `goodNamesDoc` for a subtree. -/
def GoodUnder (e : XmlElem) : Prop :=
  nameOk e = true ∧ ∀ y ∈ descendants e, nameOk y = true

/-- Sample schema leaf: `<element name="Name" type="xs:string" minOccurs="0"/>`. -/
def exLeaf : XmlElem :=
  .mk elementTag [("name", "Name"), ("type", "xs:string"), ("minOccurs", "0")] none []

/-- Sample schema root field: a named element whose inline complexType
sequence declares `exLeaf`. -/
def exRoot : XmlElem :=
  .mk elementTag [("name", "ApplicantInfo")] none
    [.mk complexTypeTag [] none
      [.mk sequenceTag [] none [exLeaf]]]

/-- Sample well-formed document. -/
def exDoc : XmlElem := .mk (xsdTag "schema") [] none [exRoot]

def exCol0 : ColumnInfo :=
  { name := "ApplicantInfo", path := "ApplicantInfo", type_source := "",
    type := "FieldSet", required := true, min_occurrences := "1",
    max_occurrences := "1", description := "", order := 0, depth := 0 }

def exCol1 : ColumnInfo :=
  { name := "Name", path := "ApplicantInfo.Name", type_source := "xs",
    type := "string", required := false, min_occurrences := "0",
    max_occurrences := "1", description := "", order := 1, depth := 1 }

def exCols : List ColumnInfo := [exCol0, exCol1]

def exMetaRow : MetaRow :=
  { form_link := "https://apply07.grants.gov/apply/forms/schemas/good"
    form_family := "F"
    form_name := "Good Form"
    form_omb_number := "123"
    form_agency_owner := "HHS" }

def exDocRow (ci : ColumnInfo) : DocRow :=
  { info := ci, source_file := "good.xml", form_name_xml := "good.xml",
    form_link := "https://apply07.grants.gov/apply/forms/schemas/good" }

def exFinalRows : List FinalRow :=
  [{ row := exDocRow exCol0, meta := some exMetaRow },
   { row := exDocRow exCol1, meta := some exMetaRow }]

/-- An unnamed element whose child is named: the pruning sample. -/
def exUnnamed : XmlElem :=
  .mk elementTag [] none [.mk elementTag [("name", "Inner")] none []]

/-- A named element whose first annotation has no documentation while a later
annotation does: the C5 sample. -/
def exAnnEl : XmlElem :=
  .mk elementTag [("name", "F")] none
    [.mk annotationTag [] none [],
     .mk annotationTag [] none [.mk documentationTag [] (some "hi") []]]

/-- A document whose only field is named `"A.B"`: a dot inside a name. -/
def exDotDoc : XmlElem :=
  .mk (xsdTag "schema") [] none [.mk elementTag [("name", "A.B")] none []]

/-- A document that itself is a named schema element with no children. -/
def exBareRoot : XmlElem := .mk elementTag [("name", "A")] none []

/-- A named element whose annotation has a documentation element carrying no
text: `documentation.text is None`. -/
def exBadEl : XmlElem :=
  .mk elementTag [("name", "ApplicantInfo")] none
    [.mk annotationTag [] none [.mk documentationTag [] none []]]

/-- A document containing `exBadEl` as its root field. -/
def exDocBad : XmlElem := .mk (xsdTag "schema") [] none [exBadEl]

/-! ### Size and fuel lemmas -/

theorem size_mk (t : String) (a : List (String × String)) (tx : Option String)
    (c : List XmlElem) : (XmlElem.mk t a tx c).size = 1 + sizeL c := by
  simp [XmlElem.size]

theorem sizeL_children_lt_size (e : XmlElem) : sizeL e.children < e.size := by
  cases e with
  | mk t a tx c => simp [XmlElem.size, XmlElem.children]

theorem size_lt_sizeL_of_mem {c : XmlElem} {cs : List XmlElem} (h : c ∈ cs) :
    c.size < sizeL cs := by
  induction cs with
  | nil => cases h
  | cons d ds ih =>
    rcases List.mem_cons.mp h with h | h
    · subst h; simp [sizeL]; omega
    · have := ih h; simp [sizeL]; omega

theorem sizeL_filter_le (p : XmlElem → Bool) (cs : List XmlElem) :
    sizeL (cs.filter p) ≤ sizeL cs := by
  induction cs with
  | nil => simp [sizeL]
  | cons d ds ih =>
    by_cases hp : p d
    · simp [List.filter, hp, sizeL]; omega
    · simp only [List.filter, hp]
      simp [sizeL]; omega

theorem sizeL_nonneg_cons (c : XmlElem) (cs : List XmlElem) :
    1 ≤ sizeL (c :: cs) := by
  simp [sizeL]; omega

/-- The pre-order listing does not depend on the fuel, once sufficient. -/
theorem allNodesF_irrel :
    ∀ f1 f2 cs, sizeL cs ≤ f1 → sizeL cs ≤ f2 → allNodesF f1 cs = allNodesF f2 cs := by
  intro f1
  induction f1 with
  | zero =>
    intro f2 cs h1 _
    cases cs with
    | nil => cases f2 <;> simp [allNodesF]
    | cons c cs => exact absurd h1 (by simp [sizeL])
  | succ f1 ih =>
    intro f2 cs h1 h2
    cases cs with
    | nil => cases f2 <;> simp [allNodesF]
    | cons c cs =>
      cases f2 with
      | zero => exact absurd h2 (by simp [sizeL])
      | succ f2 =>
        have hcs : sizeL (c :: cs) = 1 + c.size + sizeL cs := by simp [sizeL]
        have hc1 : sizeL c.children ≤ f1 := by
          have := sizeL_children_lt_size c; omega
        have hc2 : sizeL c.children ≤ f2 := by
          have := sizeL_children_lt_size c; omega
        have ht1 : sizeL cs ≤ f1 := by omega
        have ht2 : sizeL cs ≤ f2 := by omega
        simp only [allNodesF]
        rw [ih f2 c.children hc1 hc2, ih f2 cs ht1 ht2]

/-- With sufficient fuel, the document-order search is `find?` over the
pre-order listing. -/
theorem findFirstF_eq_find? (p : XmlElem → Bool) :
    ∀ fuel cs, sizeL cs ≤ fuel →
      findFirstF p fuel cs = (allNodesF fuel cs).find? p := by
  intro fuel
  induction fuel with
  | zero =>
    intro cs h
    cases cs with
    | nil => simp [findFirstF, allNodesF]
    | cons c cs => exact absurd h (by simp [sizeL])
  | succ fuel ih =>
    intro cs h
    cases cs with
    | nil => simp [findFirstF, allNodesF]
    | cons c cs =>
      have hcs : sizeL (c :: cs) = 1 + c.size + sizeL cs := by simp [sizeL]
      have hc : sizeL c.children ≤ fuel := by
        have := sizeL_children_lt_size c; omega
      have ht : sizeL cs ≤ fuel := by omega
      simp only [findFirstF, allNodesF, List.find?_cons]
      cases hp : p c with
      | true => simp
      | false =>
        simp only [Bool.false_eq_true, if_false]
        rw [ih c.children hc, ih cs ht, List.find?_append]
        cases hfind : (allNodesF fuel c.children).find? p <;> simp [Option.or]

theorem findDeep_eq_find? (e : XmlElem) (p : XmlElem → Bool) :
    findDeep e p = (descendants e).find? p :=
  findFirstF_eq_find? p (sizeL e.children) e.children le_rfl

/-- Membership transfer into the pre-order listing: a member of the forest is
listed, and so is every one of its descendants. -/
theorem mem_allNodesF :
    ∀ fuel cs, sizeL cs ≤ fuel → ∀ c ∈ cs,
      c ∈ allNodesF fuel cs ∧ ∀ y ∈ descendants c, y ∈ allNodesF fuel cs := by
  intro fuel
  induction fuel with
  | zero =>
    intro cs h c hc
    cases cs with
    | nil => cases hc
    | cons d ds => exact absurd h (by simp [sizeL])
  | succ fuel ih =>
    intro cs h c hc
    cases cs with
    | nil => cases hc
    | cons d ds =>
      have hcs : sizeL (d :: ds) = 1 + d.size + sizeL ds := by simp [sizeL]
      have hd : sizeL d.children ≤ fuel := by
        have := sizeL_children_lt_size d; omega
      have hds : sizeL ds ≤ fuel := by omega
      simp only [allNodesF]
      rcases List.mem_cons.mp hc with hcd | hcd
      · subst hcd
        refine ⟨List.mem_cons_self _ _, ?_⟩
        intro y hy
        have : y ∈ allNodesF fuel c.children := by
          have := allNodesF_irrel (sizeL c.children) fuel c.children le_rfl hd
          rw [descendants, this] at hy; exact hy
        exact List.mem_cons_of_mem _ (List.mem_append_left _ this)
      · have := ih ds hds c hcd
        exact ⟨List.mem_cons_of_mem _ (List.mem_append_right _ this.1),
          fun y hy => List.mem_cons_of_mem _ (List.mem_append_right _ (this.2 y hy))⟩

theorem mem_descendants_of_mem_children {c e : XmlElem} (h : c ∈ e.children) :
    c ∈ descendants e :=
  (mem_allNodesF (sizeL e.children) e.children le_rfl c h).1

theorem descendants_trans {y c e : XmlElem} (hc : c ∈ e.children)
    (hy : y ∈ descendants c) : y ∈ descendants e :=
  (mem_allNodesF (sizeL e.children) e.children le_rfl c hc).2 y hy

/-! ### Emission structure of the walker -/

theorem order_of_fieldset_if (ci : ColumnInfo) (b : Bool) :
    (if b then ci else { ci with type := "FieldSet" }).order = ci.order := by
  split <;> rfl

/-- Counter threading: a successful walk appends a block of fresh rows whose
`order` values are exactly the counter values consumed, in emission order. -/
theorem orders_aux : ∀ fuel : Nat,
    (∀ e columns oc path depth res,
      process_element fuel e columns oc path depth = .ok res →
      ∃ new, res.1 = columns ++ new ∧ res.2 = oc + new.length ∧
        new.map (fun ci => ci.order) = List.range' oc new.length) ∧
    (∀ cs columns oc path depth res,
      process_children fuel cs columns oc path depth = .ok res →
      ∃ new, res.1 = columns ++ new ∧ res.2 = oc + new.length ∧
        new.map (fun ci => ci.order) = List.range' oc new.length) := by
  intro fuel
  induction fuel with
  | zero =>
    constructor
    · intro e columns oc path depth res h
      simp [process_element] at h
    · intro cs columns oc path depth res h
      obtain ⟨cols', oc'⟩ := res
      cases cs with
      | nil =>
        simp only [process_children, Except.ok.injEq, Prod.mk.injEq] at h
        exact ⟨[], by simp [← h.1, ← h.2]⟩
      | cons c cs => simp [process_children] at h
  | succ fuel ih =>
    constructor
    · intro e columns oc path depth res h
      obtain ⟨cols', oc'⟩ := res
      simp only [process_element] at h
      split at h
      · -- unnamed node
        simp only [Except.ok.injEq, Prod.mk.injEq] at h
        exact ⟨[], by simp [← h.1, ← h.2]⟩
      · split at h
        · exact absurd h (by simp)
        · split at h
          · -- no complexType
            simp only [Except.ok.injEq, Prod.mk.injEq] at h
            exact ⟨[_], h.1.symm, by simp [← h.2], by simp [List.range'_one]⟩
          · split at h
            · -- complexType but no sequence
              simp only [Except.ok.injEq, Prod.mk.injEq] at h
              exact ⟨[_], h.1.symm, by simp [← h.2], by simp [List.range'_one]⟩
            · -- sequence: recurse into children
              obtain ⟨new', h1, h2, h3⟩ := (ih.2) _ _ _ _ _ _ h
              simp only [List.append_assoc, List.singleton_append] at h1
              simp only at h2 h3
              refine ⟨_, h1, ?_, ?_⟩
              · simp only [List.length_cons]; omega
              · simp only [List.map_cons, h3, List.length_cons, List.range'_succ]
                split <;> rfl
    · intro cs columns oc path depth res h
      obtain ⟨cols', oc'⟩ := res
      cases cs with
      | nil =>
        simp only [process_children, Except.ok.injEq, Prod.mk.injEq] at h
        exact ⟨[], by simp [← h.1, ← h.2]⟩
      | cons c rest =>
        simp only [process_children] at h
        split at h
        · exact absurd h (by simp)
        · rename_i cols1oc1 heq
          obtain ⟨new1, h1, h2, h3⟩ := (ih.1) _ _ _ _ _ _ heq
          obtain ⟨new2, g1, g2, g3⟩ := (ih.2) _ _ _ _ _ _ h
          simp only at h1 h2 h3 g1 g2 g3
          refine ⟨new1 ++ new2, ?_, ?_, ?_⟩
          · rw [g1, h1, List.append_assoc]
          · simp only [List.length_append]; omega
          · rw [List.map_append, h3, g3, h2]
            have := List.range'_append oc new1.length new2.length 1
            simp only [one_mul] at this
            rw [this, Nat.add_comm, List.length_append]

theorem getDescription_error_msg {e : XmlElem} {m : String}
    (h : getDescription e = .error m) :
    m = "AttributeError: NoneType has no attribute strip" := by
  unfold getDescription at h
  split at h
  · exact absurd h (by simp)
  · split at h
    · exact absurd h (by simp)
    · split at h
      · simp only [Except.error.injEq] at h; exact h.symm
      · exact absurd h (by simp)

/-- The walker fails only by fuel exhaustion (never reached from the entry
points) or by the `AttributeError` of the description lookup. -/
theorem process_error_msgs : ∀ fuel : Nat,
    (∀ e columns oc path depth m,
      process_element fuel e columns oc path depth = .error m →
      m = "fuel exhausted" ∨
        m = "AttributeError: NoneType has no attribute strip") ∧
    (∀ cs columns oc path depth m,
      process_children fuel cs columns oc path depth = .error m →
      m = "fuel exhausted" ∨
        m = "AttributeError: NoneType has no attribute strip") := by
  intro fuel
  induction fuel with
  | zero =>
    constructor
    · intro e columns oc path depth m h
      simp only [process_element, Except.error.injEq] at h
      exact Or.inl h.symm
    · intro cs columns oc path depth m h
      cases cs with
      | nil => simp [process_children] at h
      | cons c cs =>
        simp only [process_children, Except.error.injEq] at h
        exact Or.inl h.symm
  | succ fuel ih =>
    constructor
    · intro e columns oc path depth m h
      simp only [process_element] at h
      split at h
      · exact absurd h (by simp)
      · split at h
        · rename_i msg hdesc
          simp only [Except.error.injEq] at h
          exact Or.inr (h ▸ getDescription_error_msg hdesc)
        · split at h
          · exact absurd h (by simp)
          · split at h
            · exact absurd h (by simp)
            · exact (ih.2) _ _ _ _ _ _ h
    · intro cs columns oc path depth m h
      cases cs with
      | nil => simp [process_children] at h
      | cons c rest =>
        simp only [process_children] at h
        split at h
        · rename_i msg heq
          simp only [Except.error.injEq] at h
          exact h ▸ (ih.1) _ _ _ _ _ _ heq
        · exact (ih.2) _ _ _ _ _ _ h

/-- `parse_schema` output: the `order` column is exactly `0, 1, ..., N-1`. -/
theorem parse_schema_orders {doc : XmlElem} {cols : List ColumnInfo}
    (h : parse_schema doc = .ok cols) :
    cols.map (fun ci => ci.order) = List.range cols.length := by
  unfold parse_schema at h
  cases hroot : findDeep doc isNamedSchemaElement with
  | none =>
    simp only [hroot] at h
    exact absurd h (by simp)
  | some root_element =>
    simp only [hroot] at h
    cases hproc : process_element root_element.size root_element [] 0 "" 0 with
    | error e =>
      simp only [hproc] at h
      exact absurd h (by simp)
    | ok res =>
      obtain ⟨rawCols, oc2⟩ := res
      simp only [hproc, Except.ok.injEq] at h
      obtain ⟨new, h1, _, h3⟩ := (orders_aux root_element.size).1 _ _ _ _ _ _ hproc
      simp only [List.nil_append] at h1
      subst h1
      have hperm : cols.Perm rawCols := h ▸ List.perm_insertionSort ordLE rawCols
      have hmapperm : (cols.map fun ci => ci.order).Perm
          (rawCols.map fun ci => ci.order) := hperm.map _
      have hlen : cols.length = rawCols.length := hperm.length_eq
      have hsorted : List.Sorted (· ≤ ·) (cols.map fun ci => ci.order) := by
        have : List.Sorted ordLE cols := h ▸ List.sorted_insertionSort ordLE rawCols
        exact List.pairwise_map.mpr this
      have hrange : (rawCols.map fun ci => ci.order) = List.range rawCols.length := by
        rw [h3, List.range_eq_range']
      refine List.eq_of_perm_of_sorted ?_ hsorted (List.sorted_le_range _)
      rw [hlen, ← hrange]
      exact hmapperm

/-! ### Claim theorems -/

/-- C2: a node that lacks a name attribute emits no descriptor, returns the
order counter unchanged, and its subtree is not visited at all — the walker
returns its accumulator and counter untouched, so no descendant of an
unnamed node yields a descriptor even when those descendants are named. -/
theorem c2_unnamed_node_pruned (fuel : Nat) (e : XmlElem)
    (columns : List ColumnInfo) (oc : Nat) (p : String) (d : Nat)
    (h : e.get "name" = none) :
    process_element (fuel + 1) e columns oc p d = .ok (columns, oc) := by
  simp [process_element, h]

theorem c2_unnamed_node_pruned_witness :
    exUnnamed.get "name" = none ∧
    process_element (exUnnamed.size + 1) exUnnamed [] 0 "" 0 = .ok ([], 0) :=
  ⟨rfl, c2_unnamed_node_pruned exUnnamed.size exUnnamed [] 0 "" 0 rfl⟩

/-- C3: type resolution — an explicit type splitting on ":" into exactly two
parts gives `(type_source, type) = (prefix, rest)`; any other part count
keeps the whole string as `type` with empty `type_source`; with no usable
type attribute, a nested simpleType restriction whose nonempty base splits
into exactly two parts gives `(prefix, "restriction")` and otherwise
`("", "restriction")`; with neither signal both fields stay `""`. -/
theorem c3_type_resolution (e : XmlElem) :
    (∀ tv a b, e.get "type" = some tv → tv ≠ "" → pySplit tv ':' = [a, b] →
      resolveType e = (a, b)) ∧
    (∀ tv, e.get "type" = some tv → tv ≠ "" → (pySplit tv ':').length ≠ 2 →
      resolveType e = ("", tv)) ∧
    (∀ st rs bt, (e.get "type").getD "" = "" →
      findDirect e simpleTypeTag = some st →
      findDirect st restrictionTag = some rs →
      rs.get "base" = some bt → bt ≠ "" →
      ((∀ a b, pySplit bt ':' = [a, b] → resolveType e = (a, "restriction")) ∧
       ((pySplit bt ':').length ≠ 2 → resolveType e = ("", "restriction")))) ∧
    ((e.get "type").getD "" = "" →
      (findDirect e simpleTypeTag = none ∨
        (∃ st, findDirect e simpleTypeTag = some st ∧
          findDirect st restrictionTag = none)) →
      resolveType e = ("", "")) := by
  have h0 : ¬(("" : String) ≠ "") := by decide
  refine ⟨?_, ?_, ?_, ?_⟩
  · intro tv a b hget hne hsplit
    unfold resolveType
    simp only [hget, Option.getD_some, if_pos hne, hsplit]
  · intro tv hget hne hlen
    unfold resolveType
    simp only [hget, Option.getD_some, if_pos hne]
    cases hsplit : pySplit tv ':' with
    | nil => rfl
    | cons x xs =>
      cases xs with
      | nil => rfl
      | cons y ys =>
        cases ys with
        | nil => exact absurd (by rw [hsplit]; rfl) hlen
        | cons z zs => rfl
  · intro st rs bt htv hst hrs hbase hbne
    unfold resolveType
    simp only [htv]
    rw [if_neg h0]
    simp only [hst, hrs, hbase, Option.getD_some]
    rw [if_pos hbne]
    constructor
    · intro a b hsplit
      simp only [hsplit]
    · intro hlen
      cases hsplit : pySplit bt ':' with
      | nil => rfl
      | cons x xs =>
        cases xs with
        | nil => rfl
        | cons y ys =>
          cases ys with
          | nil => exact absurd (by rw [hsplit]; rfl) hlen
          | cons z zs => rfl
  · intro htv hcases
    unfold resolveType
    simp only [htv]
    rw [if_neg h0]
    rcases hcases with hnone | ⟨st, hst, hrs⟩
    · simp only [hnone]
    · simp only [hst, hrs]

theorem c3_type_resolution_witness :
    exLeaf.get "type" = some "xs:string" ∧ pySplit "xs:string" ':' = ["xs", "string"] ∧
    resolveType exLeaf = ("xs", "string") :=
  ⟨rfl, rfl, (c3_type_resolution exLeaf).1 "xs:string" "xs" "string" rfl
    (by decide) rfl⟩

/-- C4: a named node whose nested complexType contains a sequence with
element-declaration children gets `type = "FieldSet"`, superseding whatever
the type resolution produced (while `type_source` is untouched), and the
walker recurses into the declared children in source order, passing the
node's own path as prefix and `depth + 1`. -/
theorem c4_fieldset_override (fuel : Nat) (e : XmlElem)
    (columns : List ColumnInfo) (oc : Nat) (p : String) (d : Nat)
    (nm desc : String) (ct sq : XmlElem)
    (hnm : e.get "name" = some nm)
    (hdesc : getDescription e = .ok desc)
    (hct : findDirect e complexTypeTag = some ct)
    (hsq : findDirect ct sequenceTag = some sq)
    (hkids : findallDirect sq elementTag ≠ []) :
    ∃ ci : ColumnInfo,
      process_element (fuel + 1) e columns oc p d =
        process_children fuel (findallDirect sq elementTag)
          (columns ++ [ci]) (oc + 1)
          (if p ≠ "" then p ++ "." ++ nm else nm) (d + 1) ∧
      ci.type = "FieldSet" ∧ ci.type_source = (resolveType e).1 ∧
      ci.name = nm ∧ ci.path = (if p ≠ "" then p ++ "." ++ nm else nm) ∧
      ci.order = oc ∧ ci.depth = d ∧ ci.description = desc := by
  have hne : (findallDirect sq elementTag).isEmpty = false := by
    cases hk : findallDirect sq elementTag with
    | nil => exact absurd hk hkids
    | cons a as => rfl
  refine ⟨{ name := nm, path := if p ≠ "" then p ++ "." ++ nm else nm,
            type_source := (resolveType e).1, type := "FieldSet",
            required := (e.get "minOccurs").getD "1" ≠ "0",
            min_occurrences := (e.get "minOccurs").getD "1",
            max_occurrences := (e.get "maxOccurs").getD "1",
            description := desc, order := oc, depth := d },
          ?_, rfl, rfl, rfl, rfl, rfl, rfl, rfl⟩
  simp only [process_element, hnm, hdesc, hct, hsq, hne, Bool.false_eq_true,
    if_false]

theorem c4_fieldset_override_witness :
    ∃ ci : ColumnInfo,
      process_element (exRoot.size - 1 + 1) exRoot [] 0 "" 0 =
        process_children (exRoot.size - 1)
          (findallDirect (.mk sequenceTag [] none [exLeaf]) elementTag)
          ([] ++ [ci]) (0 + 1) (if ("" : String) ≠ "" then "" ++ "." ++ "ApplicantInfo" else "ApplicantInfo") (0 + 1) ∧
      ci.type = "FieldSet" ∧ ci.type_source = (resolveType exRoot).1 ∧
      ci.name = "ApplicantInfo" ∧
      ci.path = (if ("" : String) ≠ "" then "" ++ "." ++ "ApplicantInfo" else "ApplicantInfo") ∧
      ci.order = 0 ∧ ci.depth = 0 ∧ ci.description = "" :=
  c4_fieldset_override (exRoot.size - 1) exRoot [] 0 "" 0 "ApplicantInfo" ""
    (.mk complexTypeTag [] none [.mk sequenceTag [] none [exLeaf]])
    (.mk sequenceTag [] none [exLeaf]) rfl rfl rfl rfl
    (by rw [show findallDirect (XmlElem.mk sequenceTag [] none [exLeaf]) elementTag
          = [exLeaf] from rfl]
        exact List.cons_ne_nil _ _)

theorem find?_filter_ne (v w : String) (hvw : v ≠ w) :
    ∀ l : List MetaRow,
      (l.filter (fun m => m.form_link != w)).find? (fun m => m.form_link == v) =
        l.find? (fun m => m.form_link == v) := by
  intro l
  induction l with
  | nil => rfl
  | cons m ms ih =>
    by_cases hm : m.form_link = v
    · have hkeep : (m.form_link != w) = true := by simp [hm]; exact hvw
      have hbeq : (m.form_link == v) = true := by simp [hm]
      simp [List.filter_cons, hkeep, List.find?_cons, hbeq]
    · have hfind : (m.form_link == v) = false := by simp [hm]
      by_cases hw : m.form_link = w
      · have hdrop : (m.form_link != w) = false := by simp [hw]
        simp [List.filter_cons, hdrop, List.find?_cons, hfind, ih]
      · have hkeep : (m.form_link != w) = true := by simp [hw]
        simp [List.filter_cons, hkeep, List.find?_cons, hfind, ih]

/-- Deduplication keeps exactly the first metadata row per link: filtering
the deduplicated table by a link finds the first original occurrence. -/
theorem drop_duplicatesF_filter (v : String) :
    ∀ fuel l, l.length ≤ fuel →
      (drop_duplicatesF fuel l).filter (fun m => m.form_link == v) =
        (match l.find? (fun m => m.form_link == v) with
          | none => []
          | some m => [m]) := by
  intro fuel
  induction fuel with
  | zero =>
    intro l h
    cases l with
    | nil => rfl
    | cons m ms => simp at h
  | succ fuel ih =>
    intro l h
    cases l with
    | nil => rfl
    | cons r rs =>
      have hlen : (rs.filter (fun m => m.form_link != r.form_link)).length ≤ fuel :=
        le_trans (List.length_filter_le _ _) (by simpa using h)
      simp only [drop_duplicatesF, List.filter_cons, List.find?_cons]
      by_cases hr : r.form_link = v
      · have hbeq : (r.form_link == v) = true := by simp [hr]
        rw [hbeq]
        simp only [if_true]
        rw [ih _ hlen]
        have hnone : (rs.filter (fun m => m.form_link != r.form_link)).find?
            (fun m => m.form_link == v) = none := by
          rw [List.find?_eq_none]
          intro m hm
          have hne := List.of_mem_filter hm
          simp only [bne_iff_ne, ne_eq] at hne
          simp only [beq_iff_eq]
          rw [hr] at hne
          exact hne
        rw [hnone]
      · have hbeq : (r.form_link == v) = false := by simp [hr]
        rw [hbeq]
        simp only [Bool.false_eq_true, if_false]
        rw [ih _ hlen, find?_filter_ne v r.form_link (fun hv => hr hv.symm) rs]

theorem flatMap_singleton_eq_map {α β : Type} (g : α → β) (l : List α) :
    (l.flatMap (fun a => [g a])) = l.map g := by
  induction l with
  | nil => rfl
  | cons a as ih => simp [List.flatMap_cons, ih]

/-- The enrichment equals a row-by-row lookup of the first matching original
metadata row. -/
theorem add_form_metadata_eq_map (df : List DocRow) (metadata : List MetaRow) :
    add_form_metadata df metadata =
      df.map (fun r =>
        { row := r, meta := metadata.find? (fun m => m.form_link == r.form_link) }) := by
  unfold add_form_metadata leftMerge
  have key : ∀ r : DocRow,
      (match (drop_duplicates metadata).filter (fun m => m.form_link == r.form_link) with
        | [] => [({ row := r, meta := none } : FinalRow)]
        | ms => ms.map (fun m => { row := r, meta := some m })) =
      [({ row := r,
          meta := metadata.find? (fun m => m.form_link == r.form_link) } : FinalRow)] := by
    intro r
    unfold drop_duplicates
    rw [drop_duplicatesF_filter _ metadata.length metadata le_rfl]
    cases hf : metadata.find? (fun m => m.form_link == r.form_link) <;> simp
  calc df.flatMap (fun r =>
          match (drop_duplicates metadata).filter (fun m => m.form_link == r.form_link) with
          | [] => [({ row := r, meta := none } : FinalRow)]
          | ms => ms.map (fun m => { row := r, meta := some m }))
      = df.flatMap (fun r =>
          [({ row := r,
              meta := metadata.find? (fun m => m.form_link == r.form_link) } : FinalRow)]) := by
        simp only [key]
    _ = _ := flatMap_singleton_eq_map _ df

/-- C7: enrichment deduplicates the metadata by link keeping the first
occurrence and left-joins, so the result is the input descriptor table
row-for-row — same length, no row dropped or duplicated, each row paired
with the first matching metadata row or with empty metadata. -/
theorem c7_metadata_left_join :
    ∀ (df : List DocRow) (metadata : List MetaRow),
      add_form_metadata df metadata =
        df.map (fun r =>
          { row := r, meta := metadata.find? (fun m => m.form_link == r.form_link) }) ∧
      (add_form_metadata df metadata).length = df.length :=
  fun df metadata => ⟨add_form_metadata_eq_map df metadata,
    by rw [add_form_metadata_eq_map df metadata, List.length_map]⟩

/-- The accumulator loop of `analyze_sections` produces the two filtered
sublists of the required-section list. -/
theorem analyze_sections_foldl (sections : List (String × String)) :
    ∀ (req : List String) (f0 m0 : List String),
      req.foldl (fun acc sec =>
        match lookupDict sections sec with
        | some content =>
          if content.length > 20 || content == "N/A" then (acc.1 ++ [sec], acc.2)
          else (acc.1, acc.2 ++ [sec])
        | none => (acc.1, acc.2 ++ [sec])) (f0, m0) =
      (f0 ++ req.filter (fun sec => sectionFilled sections sec),
       m0 ++ req.filter (fun sec => !sectionFilled sections sec)) := by
  intro req
  induction req with
  | nil => intro f0 m0; simp
  | cons s rest ih =>
    intro f0 m0
    simp only [List.foldl_cons]
    cases hl : lookupDict sections s with
    | none =>
      have hsf : sectionFilled sections s = false := by simp [sectionFilled, hl]
      simp only [hl, ih, List.filter_cons, hsf, Bool.false_eq_true, if_false,
        Bool.not_false, if_true, List.append_assoc, List.singleton_append]
    | some content =>
      have hsf : sectionFilled sections s =
          (content.length > 20 || content == "N/A") := by
        simp [sectionFilled, hl]
      cases hc : (decide (content.length > 20) || content == "N/A") with
      | true =>
        have hsf' : sectionFilled sections s = true := by rw [hsf]; exact_mod_cast hc
        simp only [hl, hc, ih, List.filter_cons, hsf', if_true, Bool.not_true,
          Bool.false_eq_true, if_false, List.append_assoc, List.singleton_append]
      | false =>
        have hsf' : sectionFilled sections s = false := by rw [hsf]; exact_mod_cast hc
        simp only [hl, hc, ih, List.filter_cons, hsf', Bool.false_eq_true, if_false,
          Bool.not_false, if_true, List.append_assoc, List.singleton_append]

/-- C9: on any parsed body and non-empty required-section list, a required
section is filled exactly when present among the parsed sections with content
longer than 20 characters or exactly `"N/A"`; the filled and missing lists
are the two complementary filters of the required list (hence partition it),
and the percentage is `100 * filled / required`. -/
theorem c9_completion_metrics :
    ∀ (body : String) (required_sections : List String),
      required_sections ≠ [] →
      (analyze_sections (parse_sections body) required_sections).filled =
        required_sections.filter (fun sec => sectionFilled (parse_sections body) sec) ∧
      (analyze_sections (parse_sections body) required_sections).missing =
        required_sections.filter (fun sec => !sectionFilled (parse_sections body) sec) ∧
      ((analyze_sections (parse_sections body) required_sections).filled ++
        (analyze_sections (parse_sections body) required_sections).missing).Perm
        required_sections ∧
      (analyze_sections (parse_sections body) required_sections).percent_filled =
        100 * ((analyze_sections (parse_sections body) required_sections).filled.length : ℚ) /
          (required_sections.length : ℚ) ∧
      (∀ sec, sec ∈ (analyze_sections (parse_sections body) required_sections).filled ↔
        sec ∈ required_sections ∧ ∃ c, lookupDict (parse_sections body) sec = some c ∧
          (c.length > 20 ∨ c = "N/A")) := by
  intro body required_sections _
  have hfold := analyze_sections_foldl (parse_sections body) required_sections [] []
  have hfill : (analyze_sections (parse_sections body) required_sections).filled =
      required_sections.filter (fun sec => sectionFilled (parse_sections body) sec) := by
    unfold analyze_sections
    rw [hfold]
    simp
  have hmiss : (analyze_sections (parse_sections body) required_sections).missing =
      required_sections.filter (fun sec => !sectionFilled (parse_sections body) sec) := by
    unfold analyze_sections
    rw [hfold]
    simp
  refine ⟨hfill, hmiss, ?_, ?_, ?_⟩
  · rw [hfill, hmiss]
    exact List.filter_append_perm _ _
  · unfold analyze_sections
    rw [hfold]
    simp only [List.nil_append]
    ring
  · intro sec
    rw [hfill, List.mem_filter]
    constructor
    · rintro ⟨hmem, hcond⟩
      refine ⟨hmem, ?_⟩
      unfold sectionFilled at hcond
      cases hl : lookupDict (parse_sections body) sec with
      | none => rw [hl] at hcond; simp at hcond
      | some c =>
        rw [hl] at hcond
        refine ⟨c, rfl, ?_⟩
        simpa using hcond
    · rintro ⟨hmem, c, hl, hcond⟩
      refine ⟨hmem, ?_⟩
      unfold sectionFilled
      rw [hl]
      simpa using hcond

theorem c9_completion_metrics_witness :
    (analyze_sections (parse_sections "### A\nN/A\n") ["A", "B"]).filled =
      ["A", "B"].filter (fun sec => sectionFilled (parse_sections "### A\nN/A\n") sec) ∧
    (analyze_sections (parse_sections "### A\nN/A\n") ["A", "B"]).missing =
      ["A", "B"].filter (fun sec => !sectionFilled (parse_sections "### A\nN/A\n") sec) ∧
    ((analyze_sections (parse_sections "### A\nN/A\n") ["A", "B"]).filled ++
      (analyze_sections (parse_sections "### A\nN/A\n") ["A", "B"]).missing).Perm
      ["A", "B"] ∧
    (analyze_sections (parse_sections "### A\nN/A\n") ["A", "B"]).percent_filled =
      100 * ((analyze_sections (parse_sections "### A\nN/A\n") ["A", "B"]).filled.length : ℚ) /
        ((["A", "B"] : List String).length : ℚ) ∧
    (∀ sec, sec ∈ (analyze_sections (parse_sections "### A\nN/A\n") ["A", "B"]).filled ↔
      sec ∈ (["A", "B"] : List String) ∧
        ∃ c, lookupDict (parse_sections "### A\nN/A\n") sec = some c ∧
          (c.length > 20 ∨ c = "N/A")) :=
  c9_completion_metrics "### A\nN/A\n" ["A", "B"] (by decide)

/-- C1: the `order` values of a parsed document form the contiguous range
`0..N-1` in emission (pre-order) position — the i-th row of the output
carries order `i` — and the counter is document-scoped: every per-document
table of a batch separately carries orders `0..N-1`. -/
theorem c1_order_range :
    (∀ doc cols, parse_schema doc = .ok cols →
      cols.map (fun ci => ci.order) = List.range cols.length) ∧
    (∀ schema_files df, df ∈ batchDfs schema_files →
      df.map (fun r => r.info.order) = List.range df.length) := by
  constructor
  · exact fun doc cols h => parse_schema_orders h
  · intro files df hdf
    unfold batchDfs at hdf
    rw [List.mem_filterMap] at hdf
    obtain ⟨f, hf, hg⟩ := hdf
    cases hp : parse_schema f.2 with
    | error e => rw [hp] at hg; simp [Except.toOption] at hg
    | ok cols =>
      rw [hp] at hg
      simp only [Except.toOption, Option.map_some', Option.some.injEq] at hg
      have horders := parse_schema_orders hp
      rw [← hg]
      unfold tagRows
      simpa [List.map_map, Function.comp] using horders

theorem c1_order_range_witness :
    exCols.map (fun ci => ci.order) = List.range exCols.length :=
  c1_order_range.1 exDoc exCols rfl

/-- C5 (amended): the description of a named node's descriptor is scoped to
the first annotation element found in its subtree: the stripped text of the
first documentation element under that annotation, and `""` when there is no
annotation or that annotation's subtree holds no documentation element.  (A
documentation element elsewhere in the subtree is not consulted.) -/
theorem c5_description_first_annotation :
    ∀ fuel e columns oc p d res nm,
      e.get "name" = some nm →
      process_element fuel e columns oc p d = .ok res →
      ∃ ci rest, res.1 = columns ++ ci :: rest ∧
        (findDeep e (fun x => x.tag == annotationTag) = none →
          ci.description = "") ∧
        (∀ ann, findDeep e (fun x => x.tag == annotationTag) = some ann →
          (findDeep ann (fun x => x.tag == documentationTag) = none →
            ci.description = "") ∧
          (∀ dEl t, findDeep ann (fun x => x.tag == documentationTag) = some dEl →
            dEl.text = some t → ci.description = pyStrip t)) := by
  intro fuel e columns oc p d res nm hnm h
  cases fuel with
  | zero => simp [process_element] at h
  | succ fuel =>
    simp only [process_element, hnm] at h
    split at h
    · exact absurd h (by simp)
    · rename_i desc hd
      have hdesc_cases :
          (findDeep e (fun x => x.tag == annotationTag) = none → desc = "") ∧
          (∀ ann, findDeep e (fun x => x.tag == annotationTag) = some ann →
            (findDeep ann (fun x => x.tag == documentationTag) = none → desc = "") ∧
            (∀ dEl t, findDeep ann (fun x => x.tag == documentationTag) = some dEl →
              dEl.text = some t → desc = pyStrip t)) := by
        constructor
        · intro hann
          unfold getDescription at hd
          simp only [hann, Except.ok.injEq] at hd
          exact hd.symm
        · intro ann hann
          unfold getDescription at hd
          simp only [hann] at hd
          constructor
          · intro hdoc
            simp only [hdoc, Except.ok.injEq] at hd
            exact hd.symm
          · intro dEl t hdoc ht
            simp only [hdoc, ht, Except.ok.injEq] at hd
            exact hd.symm
      split at h
      · -- no complexType
        simp only [Except.ok.injEq] at h
        exact ⟨_, [], by rw [← h], hdesc_cases.1, hdesc_cases.2⟩
      · split at h
        · -- complexType without sequence
          simp only [Except.ok.injEq] at h
          exact ⟨_, [], by rw [← h], hdesc_cases.1, hdesc_cases.2⟩
        · -- sequence branch
          obtain ⟨new', h1, _, _⟩ := (orders_aux fuel).2 _ _ _ _ _ _ h
          simp only [List.append_assoc, List.singleton_append] at h1
          refine ⟨_, new', h1, ?_, ?_⟩
          · intro hann
            have := hdesc_cases.1 hann
            split <;> simpa using this
          · intro ann hann
            constructor
            · intro hdoc
              have := (hdesc_cases.2 ann hann).1 hdoc
              split <;> simpa using this
            · intro dEl t hdoc ht
              have := (hdesc_cases.2 ann hann).2 dEl t hdoc ht
              split <;> simpa using this

/-- The expected single descriptor of `exAnnEl`. -/
def exAnnCol : ColumnInfo :=
  { name := "F", path := "F", type_source := "", type := "",
    required := true, min_occurrences := "1", max_occurrences := "1",
    description := "", order := 0, depth := 0 }

theorem c5_description_first_annotation_witness :
    ∃ ci rest, (([exAnnCol], 1) : List ColumnInfo × Nat).1 =
        ([] : List ColumnInfo) ++ ci :: rest ∧
      (findDeep exAnnEl (fun x => x.tag == annotationTag) = none →
        ci.description = "") ∧
      (∀ ann, findDeep exAnnEl (fun x => x.tag == annotationTag) = some ann →
        (findDeep ann (fun x => x.tag == documentationTag) = none →
          ci.description = "") ∧
        (∀ dEl t, findDeep ann (fun x => x.tag == documentationTag) = some dEl →
          dEl.text = some t → ci.description = pyStrip t)) :=
  c5_description_first_annotation exAnnEl.size exAnnEl [] 0 "" 0
    ([exAnnCol], 1) "F" rfl rfl

/-- C5 as stated is false: in `exAnnEl` the first documentation element found
anywhere in the subtree has (nonempty) text `"hi"`, yet the emitted
descriptor's description is `""`, because the lookup is scoped to the first
annotation, which holds no documentation. -/
theorem c5_description_counterexample :
    process_element exAnnEl.size exAnnEl [] 0 "" 0 = .ok ([exAnnCol], 1) ∧
    exAnnCol.description = "" ∧
    specFirstDocumentationText exAnnEl = some "hi" ∧
    pyStrip "hi" ≠ "" :=
  ⟨rfl, rfl, rfl, by decide⟩

/-- C8 (amended): `parse_schema` fails with "no root field found" iff no
proper descendant of the document root is a name-bearing schema element (the
outermost node itself is never a candidate); in a batch, failing documents
are skipped so the aggregate holds exactly the rows of the documents that
parsed; the batch raises iff there are no candidate files or no document
parsed. -/
theorem c8_error_policy :
    (∀ doc, parse_schema doc = .error "No root element found in schema" ↔
      ∀ x ∈ descendants doc, ¬ isNamedSchemaElement x = true) ∧
    (∀ schema_files metadata,
      (∃ m, parse_all_schemas schema_files metadata = .error m) ↔
      (schema_files = [] ∨
        ∀ f ∈ schema_files, ∀ cols, ¬ parse_schema f.2 = .ok cols)) ∧
    (∀ schema_files metadata rows,
      parse_all_schemas schema_files metadata = .ok rows →
      rows.Perm (add_form_metadata (batchDfs schema_files).flatten metadata)) := by
  refine ⟨?_, ?_, ?_⟩
  · intro doc
    constructor
    · intro h
      unfold parse_schema at h
      cases hf : findDeep doc isNamedSchemaElement with
      | none =>
        rw [findDeep_eq_find?, List.find?_eq_none] at hf
        exact hf
      | some root_el =>
        simp only [hf] at h
        cases hp : process_element root_el.size root_el [] 0 "" 0 with
        | ok res =>
          simp only [hp] at h
          exact absurd h (by simp)
        | error m =>
          simp only [hp, Except.error.injEq] at h
          rcases (process_error_msgs root_el.size).1 _ _ _ _ _ _ hp with h1 | h1 <;>
            (rw [h1] at h; exact absurd h (by decide))
    · intro hall
      unfold parse_schema
      have hnone : findDeep doc isNamedSchemaElement = none := by
        rw [findDeep_eq_find?, List.find?_eq_none]
        exact hall
      rw [hnone]
  · intro files metadata
    constructor
    · rintro ⟨m, hm⟩
      unfold parse_all_schemas at hm
      by_cases hf : files.isEmpty
      · left; exact List.isEmpty_iff.mp hf
      · simp only [hf, Bool.false_eq_true, if_false] at hm
        by_cases hb : (batchDfs files).isEmpty
        · right
          have hbnil : batchDfs files = [] := List.isEmpty_iff.mp hb
          unfold batchDfs at hbnil
          rw [List.filterMap_eq_nil_iff] at hbnil
          intro f hf' cols hok
          have := hbnil f hf'
          rw [hok] at this
          simp [Except.toOption] at this
        · simp only [hb, Bool.false_eq_true, if_false] at hm
          exact absurd hm (by simp)
    · intro hcases
      rcases hcases with hnil | hall
      · subst hnil
        exact ⟨"No XML files found", rfl⟩
      · unfold parse_all_schemas
        by_cases hf : files.isEmpty
        · simp only [hf, if_true]
          exact ⟨_, rfl⟩
        · simp only [hf, Bool.false_eq_true, if_false]
          have hb : (batchDfs files).isEmpty = true := by
            rw [List.isEmpty_iff]
            unfold batchDfs
            rw [List.filterMap_eq_nil_iff]
            intro f hf'
            cases hp : parse_schema f.2 with
            | error e => simp [Except.toOption]
            | ok cols => exact absurd hp (hall f hf' cols)
          simp only [hb, if_true]
          exact ⟨_, rfl⟩
  · intro files metadata rows h
    unfold parse_all_schemas at h
    by_cases hf : files.isEmpty
    · simp [hf] at h
    · simp only [hf, Bool.false_eq_true, if_false] at h
      by_cases hb : (batchDfs files).isEmpty
      · simp [hb] at h
      · simp only [hb, Bool.false_eq_true, if_false, Except.ok.injEq] at h
        rw [← h]
        exact List.perm_insertionSort _ _

/-- C8 as stated is false at a document whose outermost node is itself a
named schema element: the document contains a name-bearing element, yet
`parse_schema` still fails with "no root field found", because the search
only inspects proper descendants. -/
theorem c8_error_policy_counterexample :
    parse_schema exBareRoot = .error "No root element found in schema" ∧
    (exBareRoot :: descendants exBareRoot).any isNamedSchemaElement = true :=
  ⟨rfl, rfl⟩

theorem c8_error_policy_witness :
    exFinalRows.Perm
      (add_form_metadata (batchDfs [("good.xml", exDoc)]).flatten [exMetaRow]) :=
  c8_error_policy.2.2 [("good.xml", exDoc)] [exMetaRow] exFinalRows rfl

/-- C10: a well-formed document in which the first annotation of a named
node holds a documentation element with no text makes `process_element`
raise (`None.strip()`), so `parse_schema` is not total on name-bearing
documents; in a batch such a document is silently excluded exactly like a
structurally malformed one, and a batch of only such documents raises the
"no documents parsed" error. -/
theorem c10_missing_documentation_text :
    process_element exBadEl.size exBadEl [] 0 "" 0 =
      .error "AttributeError: NoneType has no attribute strip" ∧
    parse_schema exDocBad =
      .error "AttributeError: NoneType has no attribute strip" ∧
    parse_all_schemas [("good.xml", exDoc), ("bad.xml", exDocBad)] [exMetaRow] =
      .ok exFinalRows ∧
    parse_all_schemas [("bad.xml", exDocBad)] [exMetaRow] =
      .error "No schemas were successfully parsed" :=
  ⟨rfl, rfl, rfl, rfl⟩

/-! ### Path and depth structure (C6) -/

theorem append_ne_empty_left {a b : String} (h : a ≠ "") : a ++ b ≠ "" := by
  intro hc
  apply h
  have hdata := congrArg String.data hc
  rw [String.data_append] at hdata
  have h2 := List.append_eq_nil.mp hdata
  exact String.ext (by rw [h2.1])

theorem joinPath_cons_of_ne {n : String} {c : List String} (h : c ≠ []) :
    joinPath (n :: c) = n ++ "." ++ joinPath c := by
  cases c with
  | nil => exact absurd rfl h
  | cons m rest => simp [joinPath]

theorem joinPath_ne_empty {chain : List String} (hne : chain ≠ [])
    (hok : ∀ n ∈ chain, n ≠ "") : joinPath chain ≠ "" := by
  cases chain with
  | nil => exact absurd rfl hne
  | cons n c =>
    cases c with
    | nil => exact hok n (by simp)
    | cons m rest =>
      rw [joinPath_cons_of_ne (by simp)]
      exact append_ne_empty_left (append_ne_empty_left (hok n (by simp)))

theorem joinPath_concat {n : String} :
    ∀ {chain : List String}, chain ≠ [] →
      joinPath (chain ++ [n]) = joinPath chain ++ "." ++ n := by
  intro chain
  induction chain with
  | nil => intro h; exact absurd rfl h
  | cons a rest ih =>
    intro _
    cases rest with
    | nil => simp [joinPath]
    | cons b bs =>
      rw [List.cons_append, joinPath_cons_of_ne (by simp),
        joinPath_cons_of_ne (by simp), ih (by simp)]
      simp only [String.append_assoc]

theorem countDots_of_dot_free {n : String} (h : '.' ∉ n.data) :
    countDots n = 0 := by
  unfold countDots
  exact List.count_eq_zero.mpr h

theorem countDots_append (a b : String) :
    countDots (a ++ b) = countDots a + countDots b := by
  unfold countDots
  rw [String.data_append, List.count_append]

theorem countDots_joinPath :
    ∀ {chain : List String}, chain ≠ [] → (∀ n ∈ chain, '.' ∉ n.data) →
      countDots (joinPath chain) + 1 = chain.length := by
  intro chain
  induction chain with
  | nil => intro h; exact absurd rfl h
  | cons a rest ih =>
    intro _ hok
    cases rest with
    | nil =>
      simp only [joinPath, List.length_cons, List.length_nil]
      rw [countDots_of_dot_free (hok a (by simp))]
    | cons b bs =>
      rw [joinPath_cons_of_ne (by simp), countDots_append, countDots_append,
        countDots_of_dot_free (hok a (by simp))]
      have hdot : countDots "." = 1 := rfl
      rw [hdot]
      have := ih (by simp) (fun n hn => hok n (by simp [hn]))
      simp only [List.length_cons] at this ⊢
      omega

/-- The pre-order listing is closed under taking descendants. -/
theorem allNodesF_closed :
    ∀ fuel cs, sizeL cs ≤ fuel → ∀ x ∈ allNodesF fuel cs,
      ∀ y ∈ descendants x, y ∈ allNodesF fuel cs := by
  intro fuel
  induction fuel with
  | zero =>
    intro cs h x hx
    cases cs with
    | nil => simp [allNodesF] at hx
    | cons c cs => exact absurd h (by simp [sizeL])
  | succ fuel ih =>
    intro cs h x hx y hy
    cases cs with
    | nil => simp [allNodesF] at hx
    | cons c cs =>
      have hcs : sizeL (c :: cs) = 1 + c.size + sizeL cs := by simp [sizeL]
      have hc : sizeL c.children ≤ fuel := by
        have := sizeL_children_lt_size c; omega
      have ht : sizeL cs ≤ fuel := by omega
      simp only [allNodesF, List.mem_cons, List.mem_append] at hx ⊢
      rcases hx with hx | hx | hx
      · subst hx
        have : y ∈ allNodesF fuel x.children := by
          have hirrel := allNodesF_irrel (sizeL x.children) fuel x.children le_rfl hc
          rw [descendants, hirrel] at hy
          exact hy
        exact Or.inr (Or.inl this)
      · exact Or.inr (Or.inl (ih c.children hc x hx y hy))
      · exact Or.inr (Or.inr (ih cs ht x hx y hy))

theorem descendants_closed {doc x y : XmlElem} (hx : x ∈ descendants doc)
    (hy : y ∈ descendants x) : y ∈ descendants doc :=
  allNodesF_closed (sizeL doc.children) doc.children le_rfl x hx y hy

theorem GoodUnder_child {e c : XmlElem} (h : GoodUnder e)
    (hc : c ∈ e.children) : GoodUnder c :=
  ⟨h.2 c (mem_descendants_of_mem_children hc),
   fun y hy => h.2 y (descendants_trans hc hy)⟩

theorem nameOk_spec {x : XmlElem} {n : String} (h : nameOk x = true)
    (hn : x.get "name" = some n) : n ≠ "" ∧ '.' ∉ n.data := by
  unfold nameOk at h
  rw [hn] at h
  simp only [Bool.and_eq_true, bne_iff_ne, ne_eq, Bool.not_eq_true'] at h
  refine ⟨h.1, ?_⟩
  intro hmem
  have hc : n.data.contains '.' = true := List.elem_iff.mpr hmem
  rw [h.2] at hc
  exact Bool.noConfusion hc

/-- Path/depth invariant of the walker: called with prefix `joinPath chain`
and depth `chain.length` (names nonempty and dot-free throughout), every
emitted row's path is the dot-join of an extended chain ending in its own
name, and its depth is one less than that chain's length. -/
theorem paths_aux : ∀ fuel : Nat,
    (∀ e columns oc p d res chain,
      process_element fuel e columns oc p d = .ok res →
      GoodUnder e →
      p = joinPath chain → d = chain.length →
      (∀ n ∈ chain, n ≠ "" ∧ '.' ∉ n.data) →
      ∃ new, res.1 = columns ++ new ∧
        ∀ ci ∈ new, ∃ ext : List String, ext ≠ [] ∧
          (∀ n ∈ ext, n ≠ "" ∧ '.' ∉ n.data) ∧
          ci.path = joinPath (chain ++ ext) ∧
          ci.depth + 1 = (chain ++ ext).length ∧
          (chain ++ ext).getLast? = some ci.name ∧
          ext.head? = e.get "name") ∧
    (∀ cs columns oc p d res chain,
      process_children fuel cs columns oc p d = .ok res →
      (∀ c ∈ cs, GoodUnder c) →
      p = joinPath chain → d = chain.length →
      (∀ n ∈ chain, n ≠ "" ∧ '.' ∉ n.data) →
      ∃ new, res.1 = columns ++ new ∧
        ∀ ci ∈ new, ∃ ext : List String, ext ≠ [] ∧
          (∀ n ∈ ext, n ≠ "" ∧ '.' ∉ n.data) ∧
          ci.path = joinPath (chain ++ ext) ∧
          ci.depth + 1 = (chain ++ ext).length ∧
          (chain ++ ext).getLast? = some ci.name) := by
  intro fuel
  induction fuel with
  | zero =>
    constructor
    · intro e columns oc p d res chain h
      simp [process_element] at h
    · intro cs columns oc p d res chain h _ _ _ _
      cases cs with
      | nil =>
        simp only [process_children, Except.ok.injEq] at h
        exact ⟨[], by simp [← h], by simp⟩
      | cons c cs => simp [process_children] at h
  | succ fuel ih =>
    constructor
    · intro e columns oc p d res chain h hGood hp hd hchain
      simp only [process_element] at h
      split at h
      · simp only [Except.ok.injEq] at h
        exact ⟨[], by simp [← h], by simp⟩
      · rename_i nm hnm
        split at h
        · exact absurd h (by simp)
        · rename_i desc hdesc
          have hname := nameOk_spec hGood.1 hnm
          have hfp : (if p ≠ "" then p ++ "." ++ nm else nm) =
              joinPath (chain ++ [nm]) := by
            cases chain with
            | nil =>
              have hpe : p = "" := by rw [hp]; rfl
              rw [if_neg (by simp [hpe])]
              simp [joinPath]
            | cons a rest =>
              have hpne : p ≠ "" := by
                rw [hp]
                exact joinPath_ne_empty (by simp) (fun n hn => (hchain n hn).1)
              rw [if_pos hpne, hp, joinPath_concat (by simp)]
          have hextok : ∀ n ∈ [nm], n ≠ "" ∧ '.' ∉ n.data := by
            intro n hn
            rw [List.mem_singleton] at hn
            rw [hn]
            exact hname
          have hdep : d + 1 = (chain ++ [nm]).length := by
            rw [List.length_append, hd]; rfl
          have hlast : (chain ++ [nm]).getLast? = some nm :=
            List.getLast?_concat _
          split at h
          · simp only [Except.ok.injEq] at h
            refine ⟨[_], by rw [← h], ?_⟩
            intro ci hci
            rw [List.mem_singleton] at hci
            subst hci
            exact ⟨[nm], by simp, hextok, hfp, hdep, hlast, hnm.symm⟩
          · split at h
            · simp only [Except.ok.injEq] at h
              refine ⟨[_], by rw [← h], ?_⟩
              intro ci hci
              rw [List.mem_singleton] at hci
              subst hci
              exact ⟨[nm], by simp, hextok, hfp, hdep, hlast, hnm.symm⟩
            · rename_i x1 ct hct x2 sq hsq
              have hctmem : ct ∈ e.children := by
                unfold findDirect at hct
                exact List.mem_of_find?_eq_some hct
              have hsqmem : sq ∈ ct.children := by
                unfold findDirect at hsq
                exact List.mem_of_find?_eq_some hsq
              have hkidsgood : ∀ c ∈ findallDirect sq elementTag, GoodUnder c := by
                intro c hc
                unfold findallDirect at hc
                exact GoodUnder_child
                  (GoodUnder_child (GoodUnder_child hGood hctmem) hsqmem)
                  (List.mem_of_mem_filter hc)
              have hchain2 : ∀ n ∈ chain ++ [nm], n ≠ "" ∧ '.' ∉ n.data := by
                intro n hn
                rcases List.mem_append.mp hn with hn | hn
                · exact hchain n hn
                · rw [List.mem_singleton] at hn
                  rw [hn]
                  exact hname
              obtain ⟨new', h1, hprop⟩ := (ih.2) _ _ _ _ _ _ (chain ++ [nm]) h
                hkidsgood hfp hdep hchain2
              simp only [List.append_assoc, List.singleton_append] at h1
              refine ⟨_, h1, ?_⟩
              intro ci hci
              rcases List.mem_cons.mp hci with hci | hci
              · subst hci
                refine ⟨[nm], by simp, hextok, ?_, ?_, ?_, ?_⟩
                · split <;> exact hfp
                · split <;> exact hdep
                · split <;> exact hlast
                · exact hnm.symm
              · obtain ⟨ext', hne', hok', hpath', hdep', hlast'⟩ := hprop ci hci
                refine ⟨nm :: ext', by simp, ?_, ?_, ?_, ?_, ?_⟩
                · intro n hn
                  rcases List.mem_cons.mp hn with hn | hn
                  · rw [hn]; exact hname
                  · exact hok' n hn
                · rw [hpath', List.append_assoc, List.singleton_append]
                · rw [hdep', List.append_assoc, List.singleton_append]
                · rw [List.append_assoc, List.singleton_append] at hlast'
                  exact hlast'
                · rw [List.head?_cons, hnm]
    · intro cs columns oc p d res chain h hGoods hp hd hchain
      cases cs with
      | nil =>
        simp only [process_children, Except.ok.injEq] at h
        exact ⟨[], by simp [← h], by simp⟩
      | cons c rest =>
        simp only [process_children] at h
        split at h
        · exact absurd h (by simp)
        · rename_i cols1 oc1 heq
          obtain ⟨new1, h1, hprop1⟩ := (ih.1) _ _ _ _ _ _ chain heq
            (hGoods c (List.mem_cons_self _ _)) hp hd hchain
          obtain ⟨new2, h2, hprop2⟩ := (ih.2) _ _ _ _ _ _ chain h
            (fun x hx => hGoods x (List.mem_cons_of_mem _ hx)) hp hd hchain
          simp only at h1 h2
          refine ⟨new1 ++ new2, ?_, ?_⟩
          · rw [h2, h1, List.append_assoc]
          · intro ci hci
            rcases List.mem_append.mp hci with hci | hci
            · obtain ⟨ext, a1, a2, a3, a4, a5, _⟩ := hprop1 ci hci
              exact ⟨ext, a1, a2, a3, a4, a5⟩
            · exact hprop2 ci hci

/-- C6 (amended): for documents whose element names are nonempty and
dot-free, every descriptor's path is the dot-join of a name chain that starts
at the traversal root's name and ends in the descriptor's own name, its depth
is the chain length minus one (= number of ancestors), and the dot count of
the path equals the depth. -/
theorem c6_path_depth :
    ∀ doc cols, parse_schema doc = .ok cols → goodNamesDoc doc = true →
      ∀ ci ∈ cols, ∃ chain : List String, chain ≠ [] ∧
        ci.path = joinPath chain ∧
        ci.depth + 1 = chain.length ∧
        chain.getLast? = some ci.name ∧
        (∃ rootEl, findDeep doc isNamedSchemaElement = some rootEl ∧
          chain.head? = rootEl.get "name") ∧
        countDots ci.path = ci.depth := by
  intro doc cols h hgood ci hci
  simp only [goodNamesDoc, Bool.and_eq_true, List.all_eq_true] at hgood
  unfold parse_schema at h
  cases hroot : findDeep doc isNamedSchemaElement with
  | none =>
    simp only [hroot] at h
    exact absurd h (by simp)
  | some root_element =>
    simp only [hroot] at h
    cases hproc : process_element root_element.size root_element [] 0 "" 0 with
    | error e =>
      simp only [hproc] at h
      exact absurd h (by simp)
    | ok res =>
      obtain ⟨rawCols, oc2⟩ := res
      simp only [hproc, Except.ok.injEq] at h
      have hrootmem : root_element ∈ descendants doc := by
        rw [findDeep_eq_find?] at hroot
        exact List.mem_of_find?_eq_some hroot
      have hrootgood : GoodUnder root_element :=
        ⟨hgood.2 root_element hrootmem,
         fun y hy => hgood.2 y (descendants_closed hrootmem hy)⟩
      obtain ⟨new, h1, hprop⟩ := (paths_aux root_element.size).1 _ _ _ _ _ _
        ([] : List String) hproc hrootgood rfl rfl (by simp)
      simp only [List.nil_append] at h1
      subst h1
      have hmem : ci ∈ rawCols := by
        have hperm : cols.Perm rawCols := h ▸ List.perm_insertionSort ordLE rawCols
        exact hperm.mem_iff.mp hci
      obtain ⟨ext, hne, hok, hpath, hdep, hlast, hhead⟩ := hprop ci hmem
      simp only [List.nil_append] at hpath hdep hlast
      refine ⟨ext, hne, hpath, hdep, hlast, ⟨root_element, ?_, hhead⟩, ?_⟩
      · rw [← hroot]
      · rw [hpath]
        have := countDots_joinPath hne (fun n hn => (hok n hn).2)
        omega

theorem c6_path_depth_witness :
    ∃ chain : List String, chain ≠ [] ∧
      exCol1.path = joinPath chain ∧
      exCol1.depth + 1 = chain.length ∧
      chain.getLast? = some exCol1.name ∧
      (∃ rootEl, findDeep exDoc isNamedSchemaElement = some rootEl ∧
        chain.head? = rootEl.get "name") ∧
      countDots exCol1.path = exCol1.depth :=
  c6_path_depth exDoc exCols rfl rfl exCol1 (by decide)

/-- C6 as stated is false when an element name contains a dot: the document
whose only field is named `"A.B"` yields a descriptor at depth 0 whose path
`"A.B"` has one dot separator. -/
theorem c6_path_depth_counterexample :
    ∃ cols, parse_schema exDotDoc = .ok cols ∧
      cols.map (fun ci => (ci.depth, countDots ci.path)) = [(0, 1)] :=
  ⟨_, rfl, rfl⟩
